import Mathlib

/-!
Verification development for the Access Menu NVDA add-on
(`addon/globalPlugins/accessMenu/__init__.py`).

The Python source is shallowly embedded below.  Dictionaries that preserve
insertion order are embedded as insertion-ordered association structures,
filesystem contents and the outcomes of external processes are passed in as
explicit values, and exceptions become `Except` / explicit outcome fields.
Each embedded definition cites the source function it translates.
-/

namespace AccessMenu

/-! ## String helpers

`casefold` embeds Python `str.casefold` (character-wise lowering; the add-on
only ever compares ASCII menu names), `strLower` embeds `str.lower`, and
`rstripBS` embeds `str.rstrip("\\")` (drop all trailing backslashes). -/

def casefold (s : String) : String := ⟨s.data.map Char.toLower⟩

def strLower (s : String) : String := ⟨s.data.map Char.toLower⟩

def isBS (c : Char) : Bool := c == '\\'

def rstripBS (s : String) : String :=
  ⟨(s.data.reverse.dropWhile isBS).reverse⟩

/-- Substring test on char lists: does `n` start `h`? (helper for `infixOfL`). -/
def startsWithL : List Char → List Char → Bool
  | [], _ => true
  | _ :: _, [] => false
  | n :: ns, h :: hs => n == h && startsWithL ns hs

/-- Python's `needle in hay` substring containment, on char lists. -/
def infixOfL : List Char → List Char → Bool
  | needle, [] => needle.isEmpty
  | needle, h :: hs => startsWithL needle (h :: hs) || infixOfL needle hs

/-- Python `needle in hay` on strings. -/
def containsSub (hay needle : String) : Bool := infixOfL needle.data hay.data

/-- Python `str.strip()` (ASCII whitespace suffices for these payloads). -/
def pyStrip (s : String) : String :=
  ⟨((s.data.dropWhile Char.isWhitespace).reverse.dropWhile
      Char.isWhitespace).reverse⟩

/-! ## Decimal rendering is injective

`_unique_name` builds candidate names `f"{name} ({i})"`.  To reason about the
loop we need that distinct `i` give distinct strings, i.e. that `Nat.repr`
is injective.  We prove it by evaluating the digit string back to a number. -/

def digitVal (c : Char) : Nat := c.toNat - 48

def valDigits : List Char → Nat
  | [] => 0
  | c :: cs => digitVal c * 10 ^ cs.length + valDigits cs

theorem digitVal_digitChar (m : Nat) (h : m < 10) :
    digitVal (Nat.digitChar m) = m := by
  interval_cases m <;> rfl

theorem valDigits_toDigitsCore (fuel : Nat) : ∀ n acc, n < fuel →
    valDigits (Nat.toDigitsCore 10 fuel n acc) =
      n * 10 ^ acc.length + valDigits acc := by
  induction fuel with
  | zero => intro n acc h; omega
  | succ fuel ih =>
    intro n acc h
    simp only [Nat.toDigitsCore]
    by_cases h0 : n / 10 = 0
    · have hn10 : n < 10 := by
        have := Nat.div_add_mod n 10
        have := Nat.mod_lt n (show 0 < 10 by norm_num)
        omega
      simp only [h0, if_pos rfl, valDigits]
      rw [digitVal_digitChar (n % 10) (Nat.mod_lt n (by norm_num)),
        Nat.mod_eq_of_lt hn10]
    · have hpos : 0 < n := by
        rcases Nat.eq_zero_or_pos n with h | h
        · subst h; simp at h0
        · exact h
      have hlt : n / 10 < fuel := by
        have := Nat.div_lt_self hpos (show 1 < 10 by norm_num)
        omega
      simp only [if_neg h0]
      rw [ih (n / 10) (Nat.digitChar (n % 10) :: acc) hlt]
      simp only [valDigits, List.length_cons]
      rw [digitVal_digitChar (n % 10) (Nat.mod_lt n (by norm_num))]
      have hdm : 10 * (n / 10) + n % 10 = n := Nat.div_add_mod n 10
      calc n / 10 * 10 ^ (acc.length + 1) +
            (n % 10 * 10 ^ acc.length + valDigits acc)
          = (10 * (n / 10) + n % 10) * 10 ^ acc.length + valDigits acc := by
            ring
        _ = n * 10 ^ acc.length + valDigits acc := by rw [hdm]

theorem valDigits_toDigits (n : Nat) : valDigits (Nat.toDigits 10 n) = n := by
  have h := valDigits_toDigitsCore (n + 1) n [] (Nat.lt_succ_self n)
  simpa [Nat.toDigits, valDigits] using h

theorem natRepr_inj {m n : Nat} (h : Nat.repr m = Nat.repr n) : m = n := by
  have hd : Nat.toDigits 10 m = Nat.toDigits 10 n := by
    have h2 := congrArg String.data h
    simpa [Nat.repr, List.asString] using h2
  have h3 := congrArg valDigits hd
  rwa [valDigits_toDigits, valDigits_toDigits] at h3

/-! ## `_unique_name` (source lines 79-85)

```python
def _unique_name(name, existing):
    if name not in existing:
        return name
    i = 2
    while f"{name} ({i})" in existing:
        i += 1
    return f"{name} ({i})"
```

The while loop is embedded with explicit fuel `keys.length`; the pigeonhole
argument below shows a free candidate is always found before the fuel runs
out, so the fuel-exhausted base case is unreachable in any real run. -/

def suffixed (name : String) (i : Nat) : String :=
  name ++ " (" ++ Nat.repr i ++ ")"

def uniqueNameGo (name : String) (keys : List String) : Nat → Nat → String
  | i, 0 => suffixed name i
  | i, fuel + 1 =>
    if suffixed name i ∈ keys then uniqueNameGo name keys (i + 1) fuel
    else suffixed name i

def uniqueName (name : String) (keys : List String) : String :=
  if name ∈ keys then uniqueNameGo name keys 2 keys.length else name

theorem suffixed_inj (name : String) {i j : Nat}
    (h : suffixed name i = suffixed name j) : i = j := by
  unfold suffixed at h
  have h2 := congrArg String.data h
  simp only [String.data_append] at h2
  have h3 := List.append_cancel_right h2
  have h4 := List.append_cancel_left h3
  exact natRepr_inj (String.ext h4)

theorem uniqueNameGo_exists_free (name : String) (keys : List String) :
    ∃ j, 2 ≤ j ∧ j ≤ 2 + keys.length ∧ suffixed name j ∉ keys := by
  by_contra hall
  push_neg at hall
  have hsub : (List.range' 2 (keys.length + 1)).map (suffixed name) ⊆ keys := by
    intro x hx
    rcases List.mem_map.mp hx with ⟨j, hj, rfl⟩
    rcases List.mem_range'.mp hj with ⟨k, hk, rfl⟩
    exact hall (2 + 1 * k) (by omega) (by omega)
  have hnd : ((List.range' 2 (keys.length + 1)).map (suffixed name)).Nodup := by
    refine List.Nodup.map (fun a b hab => suffixed_inj name hab) ?_
    exact List.nodup_range' 2 (keys.length + 1)
  have hle := (hnd.subperm hsub).length_le
  simp only [List.length_map, List.length_range'] at hle
  omega

theorem uniqueNameGo_spec (name : String) (keys : List String) :
    ∀ fuel i, (∃ j, i ≤ j ∧ j ≤ i + fuel ∧ suffixed name j ∉ keys) →
      ∃ i0, uniqueNameGo name keys i fuel = suffixed name i0 ∧ i ≤ i0 ∧
        suffixed name i0 ∉ keys ∧
        ∀ j, i ≤ j → j < i0 → suffixed name j ∈ keys := by
  intro fuel
  induction fuel with
  | zero =>
    intro i h
    obtain ⟨j, hij, hj0, hjn⟩ := h
    have hji : j = i := by omega
    subst hji
    exact ⟨j, rfl, Nat.le_refl j, hjn, fun k h1 h2 => absurd h1 (by omega)⟩
  | succ fuel ih =>
    intro i h
    obtain ⟨j, h1, h2, h3⟩ := h
    by_cases hm : suffixed name i ∈ keys
    · have hne : j ≠ i := by
        intro he; subst he; exact h3 hm
      obtain ⟨i0, heq, hge, hnm, hfirst⟩ :=
        ih (i + 1) ⟨j, by omega, by omega, h3⟩
      refine ⟨i0, ?_, by omega, hnm, ?_⟩
      · simpa [uniqueNameGo, hm] using heq
      · intro k hk1 hk2
        rcases Nat.eq_or_lt_of_le hk1 with hk | hk
        · subst hk; exact hm
        · exact hfirst k (by omega) hk2
    · refine ⟨i, by simp [uniqueNameGo, hm], Nat.le_refl i, hm, ?_⟩
      intro k h1 h2; omega

/-- `_unique_name` with a taken `name` returns the first free
`"name (i)"`, `i ≥ 2`. -/
theorem uniqueName_spec_taken (name : String) (keys : List String)
    (h : name ∈ keys) :
    ∃ i0, uniqueName name keys = suffixed name i0 ∧ 2 ≤ i0 ∧
      suffixed name i0 ∉ keys ∧
      ∀ j, 2 ≤ j → j < i0 → suffixed name j ∈ keys := by
  obtain ⟨j, hj1, hj2, hj3⟩ := uniqueNameGo_exists_free name keys
  have hs := uniqueNameGo_spec name keys keys.length 2 ⟨j, hj1, by omega, hj3⟩
  simpa [uniqueName, h] using hs

/-- `_unique_name` never returns a key that is already taken. -/
theorem uniqueName_not_mem (name : String) (keys : List String) :
    uniqueName name keys ∉ keys := by
  by_cases h : name ∈ keys
  · obtain ⟨i0, heq, _, hnm, _⟩ := uniqueName_spec_taken name keys h
    rw [heq]; exact hnm
  · simp [uniqueName, h]

/-- The result of `_unique_name` is the base name or a suffixed variant. -/
theorem uniqueNameGo_shape (name : String) (keys : List String) :
    ∀ fuel i, ∃ i0, uniqueNameGo name keys i fuel = suffixed name i0 := by
  intro fuel
  induction fuel with
  | zero => intro i; exact ⟨i, rfl⟩
  | succ fuel ih =>
    intro i
    by_cases hm : suffixed name i ∈ keys
    · obtain ⟨i0, h0⟩ := ih (i + 1)
      exact ⟨i0, by simpa [uniqueNameGo, hm] using h0⟩
    · exact ⟨i, by simp [uniqueNameGo, hm]⟩

theorem uniqueName_shape (name : String) (keys : List String) :
    uniqueName name keys = name ∨
      ∃ i, uniqueName name keys = suffixed name i := by
  by_cases h : name ∈ keys
  · obtain ⟨i0, h0⟩ := uniqueNameGo_shape name keys keys.length 2
    exact Or.inr ⟨i0, by simpa [uniqueName, h] using h0⟩
  · exact Or.inl (by simp [uniqueName, h])

/-! ## The menu tree

A Python dict preserving insertion order, mapping a name to either a nested
dict (folder) or a path string (launchable file), is embedded as an
insertion-ordered association structure: each binding is a `consFile` or a
`consFolder` cell.  `EntryV` is the view of one bound value, used by
lookups. -/

inductive Node where
  | nil : Node
  | consFile : String → String → Node → Node
  | consFolder : String → Node → Node → Node
deriving DecidableEq

inductive EntryV where
  | file : String → EntryV
  | folder : Node → EntryV
deriving DecidableEq

/-- The dict's key list, in insertion order. -/
def keysOf : Node → List String
  | .nil => []
  | .consFile k _ rest => k :: keysOf rest
  | .consFolder k _ rest => k :: keysOf rest

/-- Dict lookup `node[k]`. -/
def lookupA : Node → String → Option EntryV
  | .nil, _ => none
  | .consFile k p rest, q => if k = q then some (.file p) else lookupA rest q
  | .consFolder k s rest, q =>
    if k = q then some (.folder s) else lookupA rest q

/-- Dict assignment to an existing key: value replaced, position kept. -/
def setA : Node → String → EntryV → Node
  | .nil, _, _ => .nil
  | .consFile k p rest, q, v =>
    if k = q then
      match v with
      | .file p2 => .consFile k p2 rest
      | .folder s2 => .consFolder k s2 rest
    else .consFile k p (setA rest q v)
  | .consFolder k s rest, q, v =>
    if k = q then
      match v with
      | .file p2 => .consFile k p2 rest
      | .folder s2 => .consFolder k s2 rest
    else .consFolder k s (setA rest q v)

/-- Dict insertion of a fresh key: appended at the end (insertion order). -/
def pushA : Node → String → EntryV → Node
  | .nil, k, v =>
    match v with
    | .file p => .consFile k p .nil
    | .folder s => .consFolder k s .nil
  | .consFile a b rest, k, v => .consFile a b (pushA rest k v)
  | .consFolder a s rest, k, v => .consFolder a s (pushA rest k v)

/-! ## `_build_tree` (source lines 99-115)

```python
def _build_tree():
    tree = {}
    for root in _start_menu_roots():
        for dirpath, dirnames, filenames in os.walk(root):
            rel = os.path.relpath(dirpath, root)
            parts = [] if rel == "." else rel.split(os.sep)
            node = tree
            for part in parts:
                node = node.setdefault(part, {})
            for filename in filenames:
                base, ext = os.path.splitext(filename)
                if ext.lower() not in APP_EXTENSIONS:
                    continue
                path = os.path.join(dirpath, filename)
                name = _unique_name(base, node)
                node[name] = path
    return tree
```

`os.walk` is a stdlib surface, so each root is passed in as its walk
output: a list of `(parts, filenames)` entries, where `parts` is the
directory's path relative to the root, split on the separator (empty for
the root directory itself).  `os.walk` is top-down: a root's list starts
with `([], rootFiles)` and lists every directory before its
subdirectories.

The `setdefault` descent can land on a *string* value (a leaf inserted
earlier under the same name).  Python then raises unless the walk entry has
nothing to do there: with remaining parts, `str.setdefault` raises
`AttributeError`; with no remaining parts but a recognized file to insert,
`node[name] = path` raises `TypeError`.  The embedding returns `.error`
exactly in these situations. -/

/-- `APP_EXTENSIONS` (source line 51). -/
def appExtensions : List String := [".lnk", ".url", ".appref-ms"]

/-- `os.path.splitext`: split at the last dot, unless every character before
it is itself a dot (then there is no extension). -/
def splitext (s : String) : String × String :=
  match s.data.reverse.findIdx? (fun c => c = '.') with
  | none => (s, "")
  | some r =>
    let i := s.data.length - 1 - r
    if (s.data.take i).all (fun c => c = '.') then (s, "")
    else (⟨s.data.take i⟩, ⟨s.data.drop i⟩)

/-- `os.path.join` for the Windows paths this add-on handles. -/
def pathJoin (a b : String) : String := a ++ "\\" ++ b

/-- The `dirpath` of a walk entry with the given relative parts. -/
def dirPathOf (root : String) (parts : List String) : String :=
  parts.foldl pathJoin root

/-- The recognized files of one directory, as `(base, full path)` pairs, in
file order — exactly the insertions the `for filename` loop performs. -/
def recognizedInserts (dirpath : String) (files : List String) :
    List (String × String) :=
  files.filterMap (fun f =>
    let be := splitext f
    if strLower be.2 ∈ appExtensions then some (be.1, pathJoin dirpath f)
    else none)

/-- One `node[name] = path` insertion with `_unique_name`. -/
def insertLeaf (t : Node) (base path : String) : Node :=
  pushA t (uniqueName base (keysOf t)) (.file path)

/-- The `for filename` loop over one directory's recognized files. -/
def insertAll (t : Node) : List (String × String) → Node
  | [] => t
  | (b, p) :: rest => insertAll (insertLeaf t b p) rest

/-- Process one walk entry: `setdefault`-descend along `parts`, then insert
the recognized files.  See the error cases discussed above. -/
def insertWalkEntry (t : Node) : List String → List (String × String) →
    Except String Node
  | [], ins => .ok (insertAll t ins)
  | p :: rest, ins =>
    match lookupA t p with
    | some (.folder sub) =>
      match insertWalkEntry sub rest ins with
      | .ok sub2 => .ok (setA t p (.folder sub2))
      | .error e => .error e
    | some (.file _) =>
      match rest, ins with
      | [], [] => .ok t
      | _, _ => .error "descended into a leaf binding"
    | none =>
      match insertWalkEntry Node.nil rest ins with
      | .ok sub2 => .ok (pushA t p (.folder sub2))
      | .error e => .error e

/-- The `for dirpath, dirnames, filenames in os.walk(root)` loop. -/
def processEntries (t : Node) (root : String) :
    List (List String × List String) → Except String Node
  | [] => .ok t
  | (parts, files) :: rest =>
    match insertWalkEntry t parts
        (recognizedInserts (dirPathOf root parts) files) with
    | .ok t2 => processEntries t2 root rest
    | .error e => .error e

/-- The `for root in _start_menu_roots()` loop, from a given tree. -/
def buildTreeFrom (t : Node) :
    List (String × List (List String × List String)) → Except String Node
  | [] => .ok t
  | (rp, entries) :: rest =>
    match processEntries t rp entries with
    | .ok t2 => buildTreeFrom t2 rest
    | .error e => .error e

/-- `_build_tree`, as a function of the existing shortcut roots, each given
as its path and its `os.walk` output. -/
def buildTree (roots : List (String × List (List String × List String))) :
    Except String Node :=
  buildTreeFrom Node.nil roots

/-! ### Association-structure lemmas -/

theorem keysOf_pushA (t : Node) (k : String) (v : EntryV) :
    keysOf (pushA t k v) = keysOf t ++ [k] := by
  induction t with
  | nil => cases v <;> rfl
  | consFile a b rest ih => simp [pushA, keysOf, ih]
  | consFolder a s rest _ ih => simp [pushA, keysOf, ih]

theorem keysOf_setA (t : Node) (k : String) (v : EntryV) :
    keysOf (setA t k v) = keysOf t := by
  induction t with
  | nil => rfl
  | consFile a b rest ih =>
    by_cases h : a = k
    · cases v <;> simp [setA, keysOf, h]
    · simp [setA, keysOf, h, ih]
  | consFolder a s rest _ ih =>
    by_cases h : a = k
    · cases v <;> simp [setA, keysOf, h]
    · simp [setA, keysOf, h, ih]

theorem lookupA_none_iff (t : Node) (k : String) :
    lookupA t k = none ↔ k ∉ keysOf t := by
  induction t with
  | nil => simp [lookupA, keysOf]
  | consFile a b rest ih =>
    by_cases h : a = k
    · simp [lookupA, keysOf, h]
    · have h2 : ¬ k = a := fun he => h he.symm
      simp [lookupA, keysOf, h, h2, ih]
  | consFolder a s rest _ ih =>
    by_cases h : a = k
    · simp [lookupA, keysOf, h]
    · have h2 : ¬ k = a := fun he => h he.symm
      simp [lookupA, keysOf, h, h2, ih]

theorem lookupA_pushA_of_some (t : Node) (k : String) (v : EntryV)
    (q : String) (e : EntryV) (h : lookupA t q = some e) :
    lookupA (pushA t k v) q = some e := by
  induction t with
  | nil => simp [lookupA] at h
  | consFile a b rest ih =>
    by_cases ha : a = q
    · simpa [pushA, lookupA, ha] using by simpa [lookupA, ha] using h
    · simp only [lookupA, if_neg ha] at h
      simpa [pushA, lookupA, ha] using ih h
  | consFolder a s rest _ ih =>
    by_cases ha : a = q
    · simpa [pushA, lookupA, ha] using by simpa [lookupA, ha] using h
    · simp only [lookupA, if_neg ha] at h
      simpa [pushA, lookupA, ha] using ih h

theorem lookupA_pushA_self (t : Node) (k : String) (v : EntryV)
    (h : k ∉ keysOf t) : lookupA (pushA t k v) k = some v := by
  induction t with
  | nil => cases v <;> simp [pushA, lookupA]
  | consFile a b rest ih =>
    simp only [keysOf, List.mem_cons, not_or] at h
    have hne : ¬ a = k := fun he => h.1 he.symm
    simpa [pushA, lookupA, hne] using ih h.2
  | consFolder a s rest _ ih =>
    simp only [keysOf, List.mem_cons, not_or] at h
    have hne : ¬ a = k := fun he => h.1 he.symm
    simpa [pushA, lookupA, hne] using ih h.2

theorem lookupA_setA_ne (t : Node) (k : String) (v : EntryV) (q : String)
    (h : q ≠ k) : lookupA (setA t k v) q = lookupA t q := by
  induction t with
  | nil => rfl
  | consFile a b rest ih =>
    by_cases ha : a = k
    · subst ha
      have hne : ¬ a = q := fun he => h he.symm
      cases v <;> simp [setA, lookupA, hne]
    · by_cases hq : a = q <;> simp [setA, lookupA, ha, hq, h, ih]
  | consFolder a s rest _ ih =>
    by_cases ha : a = k
    · subst ha
      have hne : ¬ a = q := fun he => h he.symm
      cases v <;> simp [setA, lookupA, hne]
    · by_cases hq : a = q <;> simp [setA, lookupA, ha, hq, h, ih]

theorem lookupA_setA_self (t : Node) (k : String) (v : EntryV)
    (h : k ∈ keysOf t) : lookupA (setA t k v) k = some v := by
  induction t with
  | nil => simp [keysOf] at h
  | consFile a b rest ih =>
    by_cases ha : a = k
    · cases v <;> simp [setA, lookupA, ha]
    · simp only [keysOf, List.mem_cons] at h
      rcases h with h | h
      · exact (ha h.symm).elim
      · simpa [setA, lookupA, ha] using ih h
  | consFolder a s rest _ ih =>
    by_cases ha : a = k
    · cases v <;> simp [setA, lookupA, ha]
    · simp only [keysOf, List.mem_cons] at h
      rcases h with h | h
      · exact (ha h.symm).elim
      · simpa [setA, lookupA, ha] using ih h

/-! ### The per-node uniqueness invariant (claim C7)

`NodupN t` states every interior node of `t` binds each name at most
once. -/

def NodupN : Node → Prop
  | .nil => True
  | .consFile k _ rest => k ∉ keysOf rest ∧ NodupN rest
  | .consFolder k sub rest => k ∉ keysOf rest ∧ NodupN sub ∧ NodupN rest

/-- The invariant for one looked-up value. -/
def NodupE : EntryV → Prop
  | .file _ => True
  | .folder sub => NodupN sub

theorem nodupN_pushA (t : Node) (k : String) (v : EntryV)
    (ht : NodupN t) (hk : k ∉ keysOf t) (hv : NodupE v) :
    NodupN (pushA t k v) := by
  induction t with
  | nil =>
    cases v with
    | file p => exact ⟨by simp [keysOf], trivial⟩
    | folder s => exact ⟨by simp [keysOf], hv, trivial⟩
  | consFile a b rest ih =>
    obtain ⟨h1, h3⟩ := ht
    simp only [keysOf, List.mem_cons, not_or] at hk
    refine ⟨?_, ih h3 hk.2⟩
    rw [keysOf_pushA]
    simp only [List.mem_append, List.mem_singleton, not_or]
    exact ⟨h1, fun he => hk.1 he.symm⟩
  | consFolder a s rest _ ih =>
    obtain ⟨h1, h2, h3⟩ := ht
    simp only [keysOf, List.mem_cons, not_or] at hk
    refine ⟨?_, h2, ih h3 hk.2⟩
    rw [keysOf_pushA]
    simp only [List.mem_append, List.mem_singleton, not_or]
    exact ⟨h1, fun he => hk.1 he.symm⟩

theorem nodupN_setA (t : Node) (k : String) (v : EntryV)
    (ht : NodupN t) (hv : NodupE v) : NodupN (setA t k v) := by
  induction t with
  | nil => trivial
  | consFile a b rest ih =>
    obtain ⟨h1, h3⟩ := ht
    by_cases ha : a = k
    · subst ha
      cases v with
      | file p => simpa [setA, NodupN] using ⟨h1, h3⟩
      | folder s => simpa [setA, NodupN] using ⟨h1, hv, h3⟩
    · have hrec : NodupN (setA rest k v) := ih h3
      simp only [setA, if_neg ha, NodupN, keysOf_setA]
      exact ⟨h1, hrec⟩
  | consFolder a s rest _ ih =>
    obtain ⟨h1, h2, h3⟩ := ht
    by_cases ha : a = k
    · subst ha
      cases v with
      | file p => simpa [setA, NodupN] using ⟨h1, h3⟩
      | folder s2 => simpa [setA, NodupN] using ⟨h1, hv, h3⟩
    · have hrec : NodupN (setA rest k v) := ih h3
      simp only [setA, if_neg ha, NodupN, keysOf_setA]
      exact ⟨h1, h2, hrec⟩

theorem nodupE_of_lookupA (t : Node) (k : String) (e : EntryV)
    (ht : NodupN t) (h : lookupA t k = some e) : NodupE e := by
  induction t with
  | nil => simp [lookupA] at h
  | consFile a b rest ih =>
    obtain ⟨_, h3⟩ := ht
    by_cases ha : a = k
    · simp only [lookupA, if_pos ha, Option.some.injEq] at h
      subst h; trivial
    · exact ih h3 (by simpa [lookupA, ha] using h)
  | consFolder a s rest _ ih =>
    obtain ⟨_, h2, h3⟩ := ht
    by_cases ha : a = k
    · simp only [lookupA, if_pos ha, Option.some.injEq] at h
      subst h; exact h2
    · exact ih h3 (by simpa [lookupA, ha] using h)

theorem nodupN_insertLeaf (t : Node) (b p : String) (ht : NodupN t) :
    NodupN (insertLeaf t b p) :=
  nodupN_pushA t _ _ ht (uniqueName_not_mem b (keysOf t)) trivial

theorem nodupN_insertAll (ins : List (String × String)) :
    ∀ t, NodupN t → NodupN (insertAll t ins) := by
  induction ins with
  | nil => exact fun t ht => ht
  | cons bp rest ih =>
    exact fun t ht => ih (insertLeaf t bp.1 bp.2) (nodupN_insertLeaf t _ _ ht)

theorem nodupN_insertWalkEntry :
    ∀ (parts : List String) (t : Node) (ins : List (String × String))
      (t2 : Node), NodupN t → insertWalkEntry t parts ins = .ok t2 →
      NodupN t2 := by
  intro parts
  induction parts with
  | nil =>
    intro t ins t2 ht h
    simp only [insertWalkEntry, Except.ok.injEq] at h
    exact h ▸ nodupN_insertAll ins t ht
  | cons p rest ih =>
    intro t ins t2 ht h
    cases hl : lookupA t p with
    | some e =>
      cases e with
      | folder sub =>
        cases hr : insertWalkEntry sub rest ins with
        | ok sub2 =>
          simp only [insertWalkEntry, hl, hr, Except.ok.injEq] at h
          have hsub : NodupN sub := nodupE_of_lookupA t p _ ht hl
          exact h ▸ nodupN_setA t p _ ht (ih sub ins sub2 hsub hr)
        | error e => simp [insertWalkEntry, hl, hr] at h
      | file v =>
        cases rest with
        | nil =>
          cases ins with
          | nil =>
            simp only [insertWalkEntry, hl, Except.ok.injEq] at h
            exact h ▸ ht
          | cons a b => simp [insertWalkEntry, hl] at h
        | cons a b => simp [insertWalkEntry, hl] at h
    | none =>
      cases hr : insertWalkEntry Node.nil rest ins with
      | ok sub2 =>
        simp only [insertWalkEntry, hl, hr, Except.ok.injEq] at h
        refine h ▸ nodupN_pushA t p _ ht ?_ (ih Node.nil ins sub2 trivial hr)
        exact (lookupA_none_iff t p).mp hl
      | error e => simp [insertWalkEntry, hl, hr] at h

theorem nodupN_processEntries :
    ∀ (entries : List (List String × List String)) (t : Node) (root : String)
      (t2 : Node), NodupN t → processEntries t root entries = .ok t2 →
      NodupN t2 := by
  intro entries
  induction entries with
  | nil =>
    intro t root t2 ht h
    simp only [processEntries, Except.ok.injEq] at h
    exact h ▸ ht
  | cons pr rest ih =>
    intro t root t2 ht h
    obtain ⟨parts, files⟩ := pr
    cases hw : insertWalkEntry t parts
        (recognizedInserts (dirPathOf root parts) files) with
    | ok t1 =>
      simp only [processEntries, hw] at h
      exact ih t1 root t2 (nodupN_insertWalkEntry parts t _ t1 ht hw) h
    | error e => simp [processEntries, hw] at h

theorem nodupN_buildTreeFrom :
    ∀ (roots : List (String × List (List String × List String))) (t : Node)
      (t2 : Node), NodupN t → buildTreeFrom t roots = .ok t2 → NodupN t2 := by
  intro roots
  induction roots with
  | nil =>
    intro t t2 ht h
    simp only [buildTreeFrom, Except.ok.injEq] at h
    exact h ▸ ht
  | cons r rest ih =>
    intro t t2 ht h
    obtain ⟨rp, entries⟩ := r
    cases hp : processEntries t rp entries with
    | ok t1 =>
      simp only [buildTreeFrom, hp] at h
      exact ih t1 t2 (nodupN_processEntries _ t rp t1 ht hp) h
    | error e => simp [buildTreeFrom, hp] at h

/-! ### Lookup preservation through tree construction (claim C1) -/

theorem lookupA_insertLeaf_of_some (t : Node) (b p : String) (k : String)
    (e : EntryV) (h : lookupA t k = some e) :
    lookupA (insertLeaf t b p) k = some e :=
  lookupA_pushA_of_some t _ _ k e h

theorem lookupA_insertAll_of_some (ins : List (String × String)) :
    ∀ (t : Node) (k : String) (e : EntryV), lookupA t k = some e →
      lookupA (insertAll t ins) k = some e := by
  induction ins with
  | nil => exact fun t k e h => h
  | cons bp rest ih =>
    exact fun t k e h =>
      ih (insertLeaf t bp.1 bp.2) k e (lookupA_insertLeaf_of_some t _ _ k e h)

theorem insertAll_binds (ins : List (String × String)) :
    ∀ (t : Node) (bp : String × String), bp ∈ ins →
      ∃ k, lookupA (insertAll t ins) k = some (.file bp.2) := by
  induction ins with
  | nil => intro t bp h; simp at h
  | cons hd rest ih =>
    intro t bp h
    rcases List.mem_cons.mp h with h | h
    · subst h
      refine ⟨uniqueName bp.1 (keysOf t), ?_⟩
      refine lookupA_insertAll_of_some rest (insertLeaf t bp.1 bp.2) _ _ ?_
      exact lookupA_pushA_self t _ _ (uniqueName_not_mem bp.1 (keysOf t))
    · exact ih (insertLeaf t hd.1 hd.2) bp h

theorem lookupA_file_insertWalkEntry :
    ∀ (parts : List String) (t : Node) (ins : List (String × String))
      (t2 : Node) (k v : String),
      insertWalkEntry t parts ins = .ok t2 →
      lookupA t k = some (.file v) → lookupA t2 k = some (.file v) := by
  intro parts
  induction parts with
  | nil =>
    intro t ins t2 k v h hf
    simp only [insertWalkEntry, Except.ok.injEq] at h
    exact h ▸ lookupA_insertAll_of_some ins t k _ hf
  | cons p rest ih =>
    intro t ins t2 k v h hf
    cases hl : lookupA t p with
    | some e =>
      cases e with
      | folder sub =>
        cases hr : insertWalkEntry sub rest ins with
        | ok sub2 =>
          simp only [insertWalkEntry, hl, hr, Except.ok.injEq] at h
          subst h
          have hkp : k ≠ p := by
            intro he; subst he; rw [hl] at hf
            exact EntryV.noConfusion (Option.some.inj hf)
          rw [lookupA_setA_ne t p _ k hkp]; exact hf
        | error e => simp [insertWalkEntry, hl, hr] at h
      | file w =>
        cases rest with
        | nil =>
          cases ins with
          | nil =>
            simp only [insertWalkEntry, hl, Except.ok.injEq] at h
            exact h ▸ hf
          | cons a b => simp [insertWalkEntry, hl] at h
        | cons a b => simp [insertWalkEntry, hl] at h
    | none =>
      cases hr : insertWalkEntry Node.nil rest ins with
      | ok sub2 =>
        simp only [insertWalkEntry, hl, hr, Except.ok.injEq] at h
        exact h ▸ lookupA_pushA_of_some t p _ k _ hf
      | error e => simp [insertWalkEntry, hl, hr] at h

theorem lookupA_file_processEntries :
    ∀ (entries : List (List String × List String)) (t : Node) (root : String)
      (t2 : Node) (k v : String),
      processEntries t root entries = .ok t2 →
      lookupA t k = some (.file v) → lookupA t2 k = some (.file v) := by
  intro entries
  induction entries with
  | nil =>
    intro t root t2 k v h hf
    simp only [processEntries, Except.ok.injEq] at h
    exact h ▸ hf
  | cons pr rest ih =>
    intro t root t2 k v h hf
    obtain ⟨parts, files⟩ := pr
    cases hw : insertWalkEntry t parts
        (recognizedInserts (dirPathOf root parts) files) with
    | ok t1 =>
      simp only [processEntries, hw] at h
      exact ih t1 root t2 k v h
        (lookupA_file_insertWalkEntry parts t _ t1 k v hw hf)
    | error e => simp [processEntries, hw] at h

/-! ### Totality analysis of `_build_tree` (claim C8)

`_build_tree` only fails when the `setdefault` descent meets a leaf
binding.  Leaf keys always have the shape `base` or `"base (i)"` for a
recognized file base name, so when no directory name has that shape for any
base name in the layout, the build succeeds. -/

def leafShape (bases : List String) (k : String) : Prop :=
  ∃ b ∈ bases, k = b ∨ ∃ i, k = suffixed b i

/-- Every file binding's key has leaf shape, at every level. -/
def ShapedN (bases : List String) : Node → Prop
  | .nil => True
  | .consFile k _ rest => leafShape bases k ∧ ShapedN bases rest
  | .consFolder _ sub rest => ShapedN bases sub ∧ ShapedN bases rest

theorem shaped_lookupA_file {bases : List String} (t : Node) (k v : String)
    (ht : ShapedN bases t) (h : lookupA t k = some (.file v)) :
    leafShape bases k := by
  induction t with
  | nil => simp [lookupA] at h
  | consFile a b rest ih =>
    obtain ⟨h1, h2⟩ := ht
    by_cases ha : a = k
    · subst ha; exact h1
    · exact ih h2 (by simpa [lookupA, ha] using h)
  | consFolder a s rest _ ih =>
    obtain ⟨_, h2⟩ := ht
    by_cases ha : a = k
    · simp [lookupA, ha] at h
    · exact ih h2 (by simpa [lookupA, ha] using h)

theorem shaped_lookupA_folder {bases : List String} (t : Node) (k : String)
    (sub : Node) (ht : ShapedN bases t)
    (h : lookupA t k = some (.folder sub)) : ShapedN bases sub := by
  induction t with
  | nil => simp [lookupA] at h
  | consFile a b rest ih =>
    obtain ⟨_, h2⟩ := ht
    by_cases ha : a = k
    · simp [lookupA, ha] at h
    · exact ih h2 (by simpa [lookupA, ha] using h)
  | consFolder a s rest ihs ih =>
    obtain ⟨h1, h2⟩ := ht
    by_cases ha : a = k
    · simp only [lookupA, if_pos ha, Option.some.injEq] at h
      cases h; exact h1
    · exact ih h2 (by simpa [lookupA, ha] using h)

theorem shapedN_pushA_file {bases : List String} (t : Node) (k p : String)
    (ht : ShapedN bases t) (hk : leafShape bases k) :
    ShapedN bases (pushA t k (.file p)) := by
  induction t with
  | nil => exact ⟨hk, trivial⟩
  | consFile a b rest ih => exact ⟨ht.1, ih ht.2⟩
  | consFolder a s rest _ ih => exact ⟨ht.1, ih ht.2⟩

theorem shapedN_pushA_folder {bases : List String} (t : Node) (k : String)
    (sub : Node) (ht : ShapedN bases t) (hs : ShapedN bases sub) :
    ShapedN bases (pushA t k (.folder sub)) := by
  induction t with
  | nil => exact ⟨hs, trivial⟩
  | consFile a b rest ih => exact ⟨ht.1, ih ht.2⟩
  | consFolder a s rest _ ih => exact ⟨ht.1, ih ht.2⟩

theorem shapedN_setA_folder {bases : List String} (t : Node) (k : String)
    (sub2 : Node) (ht : ShapedN bases t) (hs : ShapedN bases sub2) :
    ShapedN bases (setA t k (.folder sub2)) := by
  induction t with
  | nil => trivial
  | consFile a b rest ih =>
    by_cases ha : a = k
    · simpa [setA, ha, ShapedN] using ⟨hs, ht.2⟩
    · simpa [setA, ha, ShapedN] using ⟨ht.1, ih ht.2⟩
  | consFolder a s rest _ ih =>
    by_cases ha : a = k
    · simpa [setA, ha, ShapedN] using ⟨hs, ht.2⟩
    · simpa [setA, ha, ShapedN] using ⟨ht.1, ih ht.2⟩

theorem uniqueName_leafShape {bases : List String} (b : String)
    (keys : List String) (hb : b ∈ bases) :
    leafShape bases (uniqueName b keys) := by
  rcases uniqueName_shape b keys with h | ⟨i, h⟩
  · exact ⟨b, hb, Or.inl h⟩
  · exact ⟨b, hb, Or.inr ⟨i, h⟩⟩

theorem shapedN_insertAll {bases : List String}
    (ins : List (String × String)) :
    ∀ t, ShapedN bases t → (∀ bp ∈ ins, bp.1 ∈ bases) →
      ShapedN bases (insertAll t ins) := by
  induction ins with
  | nil => exact fun t ht _ => ht
  | cons hd rest ih =>
    intro t ht hins
    refine ih (insertLeaf t hd.1 hd.2) ?_ (fun bp hbp => hins bp (by simp [hbp]))
    exact shapedN_pushA_file t _ _ ht
      (uniqueName_leafShape hd.1 (keysOf t) (hins hd (by simp)))

theorem insertWalkEntry_ok_of_shaped {bases : List String} :
    ∀ (parts : List String) (t : Node) (ins : List (String × String)),
      ShapedN bases t → (∀ p ∈ parts, ¬ leafShape bases p) →
      (∀ bp ∈ ins, bp.1 ∈ bases) →
      ∃ t2, insertWalkEntry t parts ins = .ok t2 ∧ ShapedN bases t2 := by
  intro parts
  induction parts with
  | nil =>
    intro t ins ht _ hins
    exact ⟨insertAll t ins, rfl, shapedN_insertAll ins t ht hins⟩
  | cons p rest ih =>
    intro t ins ht hparts hins
    cases hl : lookupA t p with
    | some e =>
      cases e with
      | file v =>
        exact absurd (shaped_lookupA_file t p v ht hl)
          (hparts p (by simp))
      | folder sub =>
        obtain ⟨sub2, hok, hsh⟩ :=
          ih sub ins (shaped_lookupA_folder t p sub ht hl)
            (fun q hq => hparts q (by simp [hq])) hins
        refine ⟨setA t p (.folder sub2), ?_, ?_⟩
        · simp [insertWalkEntry, hl, hok]
        · exact shapedN_setA_folder t p sub2 ht hsh
    | none =>
      obtain ⟨sub2, hok, hsh⟩ :=
        ih Node.nil ins trivial (fun q hq => hparts q (by simp [hq])) hins
      refine ⟨pushA t p (.folder sub2), ?_, ?_⟩
      · simp [insertWalkEntry, hl, hok]
      · exact shapedN_pushA_folder t p sub2 ht hsh

/-- The recognized base names of one directory's file list. -/
def entryBases (files : List String) : List String :=
  files.filterMap (fun f =>
    let be := splitext f
    if strLower be.2 ∈ appExtensions then some be.1 else none)

theorem recognizedInserts_base_mem (dirpath : String) (files : List String)
    (bp : String × String) (h : bp ∈ recognizedInserts dirpath files) :
    bp.1 ∈ entryBases files := by
  rcases List.mem_filterMap.mp h with ⟨f, hf, hsome⟩
  refine List.mem_filterMap.mpr ⟨f, hf, ?_⟩
  by_cases hr : strLower (splitext f).2 ∈ appExtensions
  · simp only [recognizedInserts] at hsome
    simp only [if_pos hr] at hsome ⊢
    cases hsome; rfl
  · simp [hr] at hsome

theorem processEntries_ok_of_shaped {bases : List String} :
    ∀ (entries : List (List String × List String)) (t : Node) (root : String),
      ShapedN bases t →
      (∀ pr ∈ entries, (∀ p ∈ pr.1, ¬ leafShape bases p) ∧
        (∀ b ∈ entryBases pr.2, b ∈ bases)) →
      ∃ t2, processEntries t root entries = .ok t2 ∧ ShapedN bases t2 := by
  intro entries
  induction entries with
  | nil => exact fun t root ht _ => ⟨t, rfl, ht⟩
  | cons pr rest ih =>
    intro t root ht hcond
    obtain ⟨parts, files⟩ := pr
    obtain ⟨hparts, hbases⟩ := hcond (parts, files) (by simp)
    obtain ⟨t1, hok, hsh⟩ :=
      insertWalkEntry_ok_of_shaped parts t
        (recognizedInserts (dirPathOf root parts) files) ht hparts
        (fun bp hbp => hbases bp.1
          (recognizedInserts_base_mem (dirPathOf root parts) files bp hbp))
    obtain ⟨t2, hok2, hsh2⟩ :=
      ih t1 root hsh (fun q hq => hcond q (by simp [hq]))
    exact ⟨t2, by simp [processEntries, hok, hok2], hsh2⟩

theorem buildTreeFrom_ok_of_shaped {bases : List String} :
    ∀ (roots : List (String × List (List String × List String))) (t : Node),
      ShapedN bases t →
      (∀ r ∈ roots, ∀ pr ∈ r.2, (∀ p ∈ pr.1, ¬ leafShape bases p) ∧
        (∀ b ∈ entryBases pr.2, b ∈ bases)) →
      ∃ t2, buildTreeFrom t roots = .ok t2 := by
  intro roots
  induction roots with
  | nil => exact fun t ht _ => ⟨t, rfl⟩
  | cons r rest ih =>
    intro t ht hcond
    obtain ⟨rp, entries⟩ := r
    obtain ⟨t1, hok, hsh⟩ :=
      processEntries_ok_of_shaped entries t rp ht
        (fun pr hpr => hcond (rp, entries) (by simp) pr hpr)
    obtain ⟨t2, hok2⟩ := ih t1 hsh (fun q hq => hcond q (by simp [hq]))
    exact ⟨t2, by simp [buildTreeFrom, hok, hok2]⟩

/-- All relative-path components appearing in the walk entries. -/
def rootsParts (roots : List (String × List (List String × List String))) :
    List String :=
  roots.flatMap (fun r => r.2.flatMap (fun pr => pr.1))

/-- All recognized file base names appearing in the walk entries. -/
def rootsBases (roots : List (String × List (List String × List String))) :
    List String :=
  roots.flatMap (fun r => r.2.flatMap (fun pr => entryBases pr.2))

/-! ## `_sorted_items` and `_flatten_apps` (source lines 118-135)

```python
def _sorted_items(mapping):
    return sorted(mapping.items(), key=lambda kv: kv[0].casefold())

def _flatten_apps(tree, prefix=""):
    apps = []
    for name, value in _sorted_items(tree):
        if isinstance(value, dict):
            next_prefix = f"{prefix}{name}\\"
            apps.extend(_flatten_apps(value, next_prefix))
        else:
            display = name
            if prefix:
                stripped = prefix.rstrip("\\")
                display = f"{name} ({stripped})"
            apps.append((display, value))
    return apps
```

Python's `sorted` is a stable ascending sort using `<` on the key; it is
embedded as a stable insertion sort (`insSorted`/`sortByKey`), which is
extensionally the same function.  Because each item's contribution to the
flattened list depends only on that item and on `prefix`, sorting the items
first and then concatenating their contributions equals computing each
item's contribution and then concatenating in stable-sorted key order; the
embedding does the latter so that the recursion is structural. -/

/-- Python's `<` on strings: lexicographic comparison by code point. -/
def ltCharsB : List Char → List Char → Bool
  | _, [] => false
  | [], _ :: _ => true
  | a :: as, b :: bs =>
    if a.toNat < b.toNat then true
    else if b.toNat < a.toNat then false
    else ltCharsB as bs

def ltStr (a b : String) : Bool := ltCharsB a.data b.data

def insSorted {α : Type} (key : α → String) (x : α) : List α → List α
  | [] => [x]
  | y :: ys =>
    if ltStr (key y) (key x) then y :: insSorted key x ys else x :: y :: ys

def sortByKey {α : Type} (key : α → String) : List α → List α
  | [] => []
  | x :: xs => insSorted key x (sortByKey key xs)

/-- Concatenate per-item flattened chunks in stable casefold-sorted order. -/
def assembleChunks (chunks : List (String × List (String × String))) :
    List (String × String) :=
  (sortByKey (fun c => casefold c.1) chunks).foldr (fun c acc => c.2 ++ acc) []

/-- One item's contribution to `_flatten_apps`, keyed by its name. -/
def chunkNode : Node → String → List (String × List (String × String))
  | .nil, _ => []
  | .consFile name path rest, pre =>
    (name,
      [(if pre = "" then name else name ++ " (" ++ rstripBS pre ++ ")",
        path)]) :: chunkNode rest pre
  | .consFolder name sub rest, pre =>
    (name, assembleChunks (chunkNode sub (pre ++ name ++ "\\")))
      :: chunkNode rest pre

/-- `_flatten_apps`. -/
def flattenApps (t : Node) (pre : String) : List (String × String) :=
  assembleChunks (chunkNode t pre)

/-! ### Spec-side mirror of `flatten` for claim C4

The claim states the display name of a nested leaf appends a folder label.
The mirror below follows the spec's words but carries the folder chain
explicitly as a list, with the label being the *whole* backslash-joined
chain: this is the amended reading that the source satisfies (the original
"innermost folder only" reading is refuted by a counterexample). -/

def joinBS : List String → String
  | [] => ""
  | [p] => p
  | p :: ps => p ++ "\\" ++ joinBS ps

def chunkNodeSpec : Node → List String → List (String × List (String × String))
  | .nil, _ => []
  | .consFile name path rest, ps =>
    (name,
      [(if ps = [] then name else name ++ " (" ++ joinBS ps ++ ")",
        path)]) :: chunkNodeSpec rest ps
  | .consFolder name sub rest, ps =>
    (name, assembleChunks (chunkNodeSpec sub (ps ++ [name])))
      :: chunkNodeSpec rest ps

/-- Modelled from the spec's words for the refinement in C4: `flatten` with
the folder chain as an explicit list, displaying a nested leaf as
`"name (chain)"` with the full backslash-joined chain. -/
def flattenSpecFullPath (t : Node) (ps : List String) : List (String × String) :=
  assembleChunks (chunkNodeSpec t ps)

/-- The accumulated `prefix` string corresponding to a folder chain. -/
def accPre : List String → String
  | [] => ""
  | p :: ps => p ++ "\\" ++ accPre ps

/-- A usable folder name: nonempty and not ending in a backslash (true of
every real directory name). -/
def cleanName (s : String) : Bool :=
  !s.data.isEmpty && !(s.data.getLast? == some '\\')

/-- All folder names in the tree are usable. -/
def cleanNode : Node → Bool
  | .nil => true
  | .consFile _ _ rest => cleanNode rest
  | .consFolder k sub rest => cleanName k && cleanNode sub && cleanNode rest

/-! ## God Mode enumeration chain, `_get_god_mode_items` (source lines 619-642)

Each strategy calls out of the process (helper exe, COM, PowerShell,
cscript); its returned item list is therefore an input of the embedding.
The chain logic itself is the code under verification. -/

structure EnumEnv where
  helper : List (String × String)
  comSta : List (String × String)
  powershell : List (String × String)
  cscript : List (String × String)

inductive Strat where
  | helper | comSta | powershell | cscript
deriving DecidableEq

/-- `results.sort(key=lambda kv: kv[0].casefold())`. -/
def sortPairs (l : List (String × String)) : List (String × String) :=
  sortByKey (fun it => casefold it.1) l

/-- `_get_god_mode_items`: the four strategies in fixed order, first
non-empty result wins; a helper/COM success is re-sorted at line 640.  The
second component records which strategies were invoked, in order.  (The
source also returns a constant `shell = None`, dropped here.) -/
def getGodModeItems (env : EnumEnv) :
    List (String × String) × List Strat :=
  if env.helper ≠ [] then (sortPairs env.helper, [.helper])
  else if env.comSta ≠ [] then (sortPairs env.comSta, [.helper, .comSta])
  else if env.powershell ≠ [] then
    (env.powershell, [.helper, .comSta, .powershell])
  else (env.cscript, [.helper, .comSta, .powershell, .cscript])

/-! ## Settings dialog: placeholder and `OnOK` (source lines 980-1075)

`SettingsMenuDialog.__init__` replaces an empty enumeration with the single
`("No settings items available", None)` placeholder; `OnOK` on a `None`
payload announces and returns without closing anything.  All items produced
by `_get_god_mode_items` are `(name, name)` string pairs, so the payload is
embedded as `Option String` (the `item.InvokeVerb()` COM branch of `OnOK`
is unreachable for these items). -/

def settingsItems (enum : List (String × String)) :
    List (String × Option String) :=
  if enum.isEmpty then [("No settings items available", none)]
  else enum.map (fun it => (it.1, some it.2))

inductive CloseCode where
  | ok | cancel
deriving DecidableEq

structure SettingsOutcome where
  announced : List String
  invoked : Option String
  selfClose : Option CloseCode
  parentClose : Option CloseCode
deriving DecidableEq

/-- `SettingsMenuDialog.OnOK`; `selected = none` embeds a `-1` selection. -/
def settingsOnOK (items : List (String × Option String))
    (selected : Option Nat) (hasParent : Bool) : SettingsOutcome :=
  match selected with
  | none => ⟨[], none, some .cancel, none⟩
  | some i =>
    match items.get? i with
    | none => ⟨[], none, none, none⟩
    | some (_, none) => ⟨["No settings items available."], none, none, none⟩
    | some (_, some nm) =>
      ⟨[], some nm, some .ok, if hasParent then some .ok else none⟩

/-! ## Scripted enumeration strategies and their temp files

`_get_god_mode_items_via_powershell` (source lines 190-282) and
`_get_god_mode_items_via_cscript` (source lines 333-411).  The embedding
follows each function's control flow and reports, besides the parsed item
list, which of the temporary files the strategy created still exist when it
returns (`leaked`). -/

/-- `payload.splitlines()`; a trailing newline yields a final empty piece
here, which the `if name:` filter in the callers drops, so the difference
from Python's exact splitting is unobservable. -/
def splitLinesAux : List Char → List Char → List String
  | [], acc => [⟨acc.reverse⟩]
  | c :: cs, acc =>
    if c = '\n' then (⟨acc.reverse⟩ : String) :: splitLinesAux cs []
    else splitLinesAux cs (c :: acc)

def splitLines (s : String) : List String := splitLinesAux s.data []

/-- The `for line in payload.splitlines()` parse loop shared by both
scripted strategies, followed by the casefold sort. -/
def parseItems (payload : String) : List (String × String) :=
  sortPairs ((splitLines payload).filterMap (fun ln =>
    let nm := pyStrip ln
    if nm.data.isEmpty then none else some (nm, nm)))

structure PsEnv where
  tempPath : Option String
  psRunRaises : Bool
  psFound : Bool
  exitCode : Int
  outExists : Bool
  readFails : Bool
  payload : String

structure StratFx where
  items : List (String × String)
  leaked : List String
deriving DecidableEq

/-- `_get_god_mode_items_via_powershell`.  The temp output file is created
first; it is removed only in the `finally` of the *read* phase, so every
return before that phase leaves it behind. -/
def psEnumerate (env : PsEnv) : StratFx :=
  match env.tempPath with
  | none => ⟨[], []⟩
  | some t =>
    if env.psRunRaises then ⟨[], [t]⟩
    else if !env.psFound then ⟨[], [t]⟩
    else if env.exitCode ≠ 0 then ⟨[], [t]⟩
    else
      let payload :=
        if env.outExists && !env.readFails then env.payload else ""
      if (pyStrip payload).data.isEmpty then ⟨[], []⟩
      else ⟨parseItems payload, []⟩

structure CsEnv where
  tempPath : Option String
  scriptWriteRaises : Bool
  csFound : Bool
  exitCode : Int
  outExists : Bool
  readFails : Bool
  payload : String

/-- `_get_god_mode_items_via_cscript`: the whole body sits in one
`try/finally` whose `finally` removes both the temp output file and the
generated script file whenever they exist, so nothing is ever left behind;
exceptions (temp creation, script write) propagate as `.error`. -/
def csEnumerate (env : CsEnv) :
    Except Unit (List (String × String)) × List String :=
  match env.tempPath with
  | none => (.error (), [])
  | some _ =>
    if env.scriptWriteRaises then (.error (), [])
    else if !env.csFound then (.ok [], [])
    else if env.exitCode ≠ 0 then (.ok [], [])
    else if !env.outExists then (.ok [], [])
    else if env.readFails then (.ok [], [])
    else if (pyStrip env.payload).data.isEmpty then (.ok [], [])
    else (.ok (parseItems env.payload), [])

/-! ## Leaf launch, `AppsMenuDialog.OnOK` (source lines 953-974) and
`GlobalPlugin._on_launch_app` (source lines 1280-1288)

```python
try:
    os.startfile(path)
except OSError:
    subprocess.Popen(["cmd", "/c", "start", "", path])
```

`AppsMenuDialog.OnOK` then ends both its own modal loop and its parent's.
If the `Popen` fallback itself raises, the exception propagates out of the
handler before `EndModal` runs. -/

structure LaunchEnv where
  startfileRaises : Bool
  popenRaises : Bool

structure LaunchResult where
  startfileLaunched : Bool
  spawned : Option (List String)
  raised : Bool
deriving DecidableEq

/-- The shared `os.startfile` / `cmd /c start` launch block. -/
def launchViaStart (env : LaunchEnv) (path : String) : LaunchResult :=
  if !env.startfileRaises then ⟨true, none, false⟩
  else if !env.popenRaises then
    ⟨false, some ["cmd", "/c", "start", "", path], false⟩
  else ⟨false, none, true⟩

structure AppsOnOKOutcome where
  launch : LaunchResult
  announced : List String
  selfClose : Option CloseCode
  parentClose : Option CloseCode
deriving DecidableEq

/-- `AppsMenuDialog.OnOK` on a selected `("app", path)` item. -/
def appsMenuOnOK (env : LaunchEnv) (path : String) (hasParent : Bool) :
    AppsOnOKOutcome :=
  let r := launchViaStart env path
  if r.raised then ⟨r, [], none, none⟩
  else ⟨r, [], some .ok, if hasParent then some .ok else none⟩

/-- `GlobalPlugin._on_launch_app` once a path is found for the menu id. -/
def onLaunchApp (env : LaunchEnv) (path : String) : LaunchResult :=
  launchViaStart env path

/-! ## Power menu, `PowerMenuDialog.OnOK` (source lines 1140-1170) -/

/-- The fixed `("power", action)` item list built by `_populate_list`. -/
def powerItems : List (String × String) :=
  [("power", "signout"), ("power", "poweroff"), ("power", "reboot")]

/-- The `if action == ...` spawn chain inside the `wx.YES` branch. -/
def shutdownCmd (action : String) : Option (List String) :=
  if action = "signout" then some ["shutdown", "/l"]
  else if action = "poweroff" then some ["shutdown", "/s", "/t", "0"]
  else if action = "reboot" then some ["shutdown", "/r", "/t", "0"]
  else none

structure PowerOutcome where
  prompted : Bool
  spawned : Option (List String)
  selfClose : Option CloseCode
  parentClose : Option CloseCode
deriving DecidableEq

/-- `PowerMenuDialog.OnOK`: a valid selection always prompts; only a Yes
answer spawns and closes, a No answer does nothing further.  An index past
the item list would raise (`.error`) but the list backs a three-row list
control, so it cannot be produced by the UI. -/
def powerOnOK (selected : Option Nat) (hasParent : Bool)
    (confirmYes : Bool) : Except String PowerOutcome :=
  match selected with
  | none => .ok ⟨false, none, some .cancel, none⟩
  | some i =>
    match powerItems.get? i with
    | none => .error "IndexError"
    | some (_, action) =>
      if confirmYes then
        .ok ⟨true, shutdownCmd action, some .ok,
          if hasParent then some .ok else none⟩
      else .ok ⟨true, none, none, none⟩

/-! ## Search filter, `AccessMenuSearchDialog._refresh_list`
(source lines 752-762)

```python
query = query.strip().casefold()
if not query:
    self.filtered = self.apps
else:
    self.filtered = [item for item in self.apps if query in item[0].casefold()]
``` -/

def refreshFilter (apps : List (String × String)) (query : String) :
    List (String × String) :=
  let q := casefold (pyStrip query)
  if q = "" then apps
  else apps.filter (fun item => containsSub (casefold item.1) q)

/-- The claim's own matching predicate: `displayName` contains the (raw)
query case-insensitively. -/
def claimMatchCI (displayName query : String) : Bool :=
  containsSub (casefold displayName) (casefold query)

/-! ## FavoritesStore.load -/

structure FavoritesState where
  persisted : List String
deriving DecidableEq

/-- Modelled from the spec: no `FavoritesStore` exists in the source tree
(`__init__.py` has no favorites code); §4.3 of the spec defines
`load() -> ordered sequence of path`: read the persisted list, drop entries
whose path no longer exists on disk, persist the pruned list if it changed,
return the pruned list.  Disk existence is passed in as a predicate; the
result is `(returned list, new persisted state, whether a re-persist
happened)`. -/
def favoritesLoad (existsOnDisk : String → Bool) (st : FavoritesState) :
    List String × FavoritesState × Bool :=
  let pruned := st.persisted.filter existsOnDisk
  (pruned, ⟨pruned⟩, decide (pruned ≠ st.persisted))

/-! ### Prefix-string bookkeeping for claim C4 -/

theorem accPre_append (ps : List String) (n : String) :
    accPre (ps ++ [n]) = accPre ps ++ (n ++ "\\") := by
  induction ps with
  | nil => simp [accPre]
  | cons q qs ih => simp [accPre, ih, String.append_assoc]

theorem joinBS_ne_empty (q : String) (rest : List String)
    (hq : cleanName q = true) : joinBS (q :: rest) ≠ "" := by
  intro h
  have hd := congrArg String.data h
  cases rest with
  | nil =>
    simp only [joinBS] at hd
    simp [cleanName, show q.data = [] by simpa using hd] at hq
  | cons r rs =>
    simp only [joinBS, String.data_append] at hd
    simp at hd

theorem rstripBS_append (a b : String) (h : rstripBS b ≠ "") :
    rstripBS (a ++ b) = a ++ rstripBS b := by
  have hb : (b.data.reverse.dropWhile isBS).isEmpty = false := by
    cases he : b.data.reverse.dropWhile isBS with
    | nil =>
      exfalso
      apply h
      apply String.ext
      simp [rstripBS, he]
    | cons c cs => rfl
  apply String.ext
  simp only [rstripBS, String.data_append, List.reverse_append,
    List.dropWhile_append, hb, Bool.false_eq_true, if_false]
  simp [List.reverse_append]

theorem rstripBS_single (p : String) (hp : cleanName p = true) :
    rstripBS (p ++ "\\") = p := by
  have hne : p.data ≠ [] := by
    intro he; simp [cleanName, he] at hp
  have hlast : p.data.getLast? ≠ some '\\' := by
    intro he; simp [cleanName, he] at hp
  apply String.ext
  show ((p.data ++ ("\\" : String).data).reverse.dropWhile isBS).reverse
      = p.data
  have h1 : (p.data ++ ("\\" : String).data).reverse
      = '\\' :: p.data.reverse := by
    rw [show ("\\" : String).data = ['\\'] from rfl]
    simp [List.reverse_append]
  rw [h1, List.dropWhile_cons, if_pos (by rfl)]
  cases hrev : p.data.reverse with
  | nil =>
    exact absurd (by simpa using congrArg List.reverse hrev) hne
  | cons c cs =>
    have hc : isBS c = false := by
      have hh := List.head?_reverse p.data
      rw [hrev] at hh
      have hcne : c ≠ '\\' := by
        intro he
        exact hlast (by rw [← hh, he]; rfl)
      simpa [isBS] using hcne
    rw [List.dropWhile_cons, hc, if_neg (by simp), ← hrev,
      List.reverse_reverse]

theorem accPre_cons_ne_empty (q : String) (ps : List String) :
    accPre (q :: ps) ≠ "" := by
  intro h
  have hd := congrArg String.data h
  simp only [accPre, String.data_append] at hd
  simp at hd

theorem rstrip_accPre (ps : List String) (hne : ps ≠ [])
    (hclean : ∀ p ∈ ps, cleanName p = true) :
    rstripBS (accPre ps) = joinBS ps := by
  induction ps with
  | nil => exact absurd rfl hne
  | cons q qs ih =>
    cases qs with
    | nil =>
      show rstripBS (q ++ "\\" ++ accPre []) = joinBS [q]
      rw [show accPre ([] : List String) = "" from rfl, String.append_empty]
      exact rstripBS_single q (hclean q (by simp))
    | cons r rs =>
      show rstripBS (q ++ "\\" ++ accPre (r :: rs)) = joinBS (q :: r :: rs)
      rw [rstripBS_append (q ++ "\\") (accPre (r :: rs)) ?hne]
      case hne =>
        rw [ih (by simp) (fun p hp => hclean p (by simp [hp]))]
        exact joinBS_ne_empty r rs (hclean r (by simp))
      rw [ih (by simp) (fun p hp => hclean p (by simp [hp]))]
      rfl

theorem chunkNode_spec_eq (t : Node) :
    ∀ ps : List String, cleanNode t = true →
      (∀ p ∈ ps, cleanName p = true) →
      chunkNode t (accPre ps) = chunkNodeSpec t ps := by
  induction t with
  | nil => intro ps _ _; rfl
  | consFile name path rest ih =>
    intro ps ht hps
    simp only [chunkNode, chunkNodeSpec]
    rw [ih ps ht hps]
    cases ps with
    | nil => rfl
    | cons q qs =>
      rw [if_neg (accPre_cons_ne_empty q qs), if_neg (by simp)]
      rw [rstrip_accPre (q :: qs) (by simp) hps]
  | consFolder name sub rest ihs ih =>
    intro ps ht hps
    simp only [cleanNode, Bool.and_eq_true] at ht
    obtain ⟨⟨hname, hsub⟩, hrest⟩ := ht
    simp only [chunkNode, chunkNodeSpec]
    rw [ih ps hrest hps]
    have hacc : accPre ps ++ name ++ "\\" = accPre (ps ++ [name]) := by
      rw [accPre_append, String.append_assoc]
    rw [hacc, ihs (ps ++ [name]) hsub ?hcl]
    case hcl =>
      intro p hp
      rcases List.mem_append.mp hp with h | h
      · exact hps p h
      · simp only [List.mem_singleton] at h
        subst h; exact hname

/-- The suffixed candidate names always end in a closing parenthesis. -/
theorem suffixed_getLast (b : String) (i : Nat) :
    (suffixed b i).data.getLast? = some ')' := by
  show (((b ++ " (") ++ Nat.repr i) ++ ")").data.getLast? = some ')'
  rw [String.data_append, show (")" : String).data = [')'] from rfl,
    List.getLast?_concat]

/-! ## Claims -/

/-- Claim C1, counterexample: for a single root containing `App1.lnk` and
`Games\App1.lnk`, `_build_tree` does *not* drop the root-level file — the
resulting tree has a root-level `"App1"` leaf besides the `Games` folder
with its own `"App1"` leaf, refuting "the root-level file produces no leaf
at all". -/
theorem claim1_counterexample :
    buildTree [("C:\\dirA", [([], ["App1.lnk"]), (["Games"], ["App1.lnk"])])]
      = .ok (Node.consFile "App1" "C:\\dirA\\App1.lnk"
          (Node.consFolder "Games"
            (Node.consFile "App1" "C:\\dirA\\Games\\App1.lnk" .nil) .nil)) ∧
    lookupA (Node.consFile "App1" "C:\\dirA\\App1.lnk"
        (Node.consFolder "Games"
          (Node.consFile "App1" "C:\\dirA\\Games\\App1.lnk" .nil) .nil))
      "App1" = some (.file "C:\\dirA\\App1.lnk") :=
  ⟨rfl, rfl⟩

/-- Claim C1, amended: `_build_tree` has no case-folded duplicate check and
never skips a root-level file: every launchable file directly at a root
produces a root-level leaf whose value is its full path (possibly under a
suffixed name), whether or not a same-named file exists in a subfolder. -/
theorem claim1_amended_root_files_kept
    (rp : String) (files : List String)
    (rest : List (List String × List String)) (T : Node)
    (hok : buildTree [(rp, ([], files) :: rest)] = .ok T)
    (f : String) (hf : f ∈ files)
    (hrec : strLower (splitext f).2 ∈ appExtensions) :
    ∃ k, lookupA T k = some (.file (pathJoin rp f)) := by
  have hpe : processEntries Node.nil rp (([], files) :: rest) = .ok T := by
    simp only [buildTree, buildTreeFrom] at hok
    cases hp : processEntries Node.nil rp (([], files) :: rest) with
    | ok t2 =>
      rw [hp] at hok
      simpa only [buildTreeFrom] using hok
    | error e =>
      rw [hp] at hok
      simp at hok
  simp only [processEntries, insertWalkEntry] at hpe
  have hbp : ((splitext f).1, pathJoin (dirPathOf rp []) f)
      ∈ recognizedInserts (dirPathOf rp []) files := by
    refine List.mem_filterMap.mpr ⟨f, hf, ?_⟩
    simp only [recognizedInserts, if_pos hrec]
  obtain ⟨k, hk⟩ :=
    insertAll_binds (recognizedInserts (dirPathOf rp []) files) Node.nil
      ((splitext f).1, pathJoin (dirPathOf rp []) f) hbp
  exact ⟨k, lookupA_file_processEntries rest _ rp T k _ hpe hk⟩

/-- Claim C1, witness for the amended theorem at the scenario root. -/
theorem claim1_amended_witness :
    ∃ k, lookupA (Node.consFile "App1" "C:\\dirA\\App1.lnk"
        (Node.consFolder "Games"
          (Node.consFile "App1" "C:\\dirA\\Games\\App1.lnk" .nil) .nil))
      k = some (.file (pathJoin "C:\\dirA" "App1.lnk")) :=
  claim1_amended_root_files_kept "C:\\dirA" ["App1.lnk"]
    [(["Games"], ["App1.lnk"])] _ rfl "App1.lnk" (by simp) (by decide)

/-- Claim C2: `_get_god_mode_items` tries helper exe, COM STA, PowerShell,
cscript in that fixed order, stops at the first non-empty result and never
invokes a later strategy after a success; when all four come back empty the
result is the empty list, the Settings screen shows exactly one
"No settings items available" placeholder, and selecting it only announces
a message, closing nothing. -/
theorem claim2_enumeration_chain_and_placeholder :
    (∀ env : EnumEnv,
      (env.helper ≠ [] →
        getGodModeItems env = (sortPairs env.helper, [.helper])) ∧
      (env.helper = [] → env.comSta ≠ [] →
        getGodModeItems env = (sortPairs env.comSta, [.helper, .comSta])) ∧
      (env.helper = [] → env.comSta = [] → env.powershell ≠ [] →
        getGodModeItems env
          = (env.powershell, [.helper, .comSta, .powershell])) ∧
      (env.helper = [] → env.comSta = [] → env.powershell = [] →
        getGodModeItems env
          = (env.cscript, [.helper, .comSta, .powershell, .cscript]))) ∧
    settingsItems [] = [("No settings items available", none)] ∧
    (∀ hasParent : Bool,
      settingsOnOK (settingsItems []) (some 0) hasParent
        = ⟨["No settings items available."], none, none, none⟩) := by
  refine ⟨?_, rfl, ?_⟩
  · intro env
    refine ⟨fun h1 => by simp [getGodModeItems, h1],
      fun h1 h2 => by simp [getGodModeItems, h1, h2],
      fun h1 h2 h3 => by simp [getGodModeItems, h1, h2, h3],
      fun h1 h2 h3 => by simp [getGodModeItems, h1, h2, h3]⟩
  · intro hasParent; rfl

/-- Claim C2, witness: the all-strategies-empty environment. -/
theorem claim2_witness :
    getGodModeItems ⟨[], [], [], []⟩
      = ([], [.helper, .comSta, .powershell, .cscript]) ∧
    settingsOnOK (settingsItems []) (some 0) true
      = ⟨["No settings items available."], none, none, none⟩ :=
  ⟨((claim2_enumeration_chain_and_placeholder.1 ⟨[], [], [], []⟩).2.2.2
      rfl rfl rfl),
    claim2_enumeration_chain_and_placeholder.2.2 true⟩

/-- Claim C3: the cscript strategy removes both its temporary files on
every exit path, but the PowerShell strategy leaks its temporary output
file when no PowerShell executable is found and when the exit code is
nonzero — its cleanup sits only in the read phase's `finally`, which the
early returns at source lines 243-252 bypass.  The claim's "every execution
path deletes every temporary file" is therefore wrong for the code. -/
theorem claim3_powershell_leaks_cscript_cleans :
    psEnumerate ⟨some "T", false, false, 0, true, false, ""⟩ = ⟨[], ["T"]⟩ ∧
    psEnumerate ⟨some "T", false, true, 1, true, false, ""⟩ = ⟨[], ["T"]⟩ ∧
    (∀ env : CsEnv, (csEnumerate env).2 = []) := by
  refine ⟨rfl, rfl, ?_⟩
  intro env
  obtain ⟨tp, sw, cf, ec, oe, rf, pl⟩ := env
  cases tp with
  | none => rfl
  | some t =>
    simp only [csEnumerate]
    repeat' split
    all_goals rfl

/-- Claim C4, counterexample: a leaf two levels deep under `Games\Classic`
is displayed as `"App (Games\Classic)"` — the full accumulated folder
path — not `"App (Classic)"` as the claim's innermost-folder reading
demands. -/
theorem claim4_counterexample :
    flattenApps (Node.consFolder "Games"
        (Node.consFolder "Classic" (Node.consFile "App" "X:\\p" .nil) .nil)
        .nil) ""
      = [("App (Games\\Classic)", "X:\\p")] ∧
    "App (Games\\Classic)" ≠ "App (Classic)" :=
  ⟨rfl, by decide⟩

/-- Claim C4, amended: for every tree whose folder names are usable and
every folder chain, `_flatten_apps` under the chain's prefix produces for
each nested leaf the display name `"name (chain)"` where the label is the
*whole* backslash-joined folder chain (a root-level leaf keeps its bare
name) — as captured by equality with the spec-side mirror that makes the
chain explicit. -/
theorem claim4_amended_full_chain (t : Node) (ps : List String)
    (ht : cleanNode t = true) (hps : ∀ p ∈ ps, cleanName p = true) :
    flattenApps t (accPre ps) = flattenSpecFullPath t ps := by
  unfold flattenApps flattenSpecFullPath
  rw [chunkNode_spec_eq t ps ht hps]

/-- Claim C4, witness for the amended theorem. -/
theorem claim4_amended_witness :
    cleanNode (Node.consFolder "G" (Node.consFile "A" "P" .nil) .nil)
        = true ∧
    flattenApps (Node.consFolder "G" (Node.consFile "A" "P" .nil) .nil)
        (accPre [])
      = flattenSpecFullPath
          (Node.consFolder "G" (Node.consFile "A" "P" .nil) .nil) [] :=
  ⟨by decide,
    claim4_amended_full_chain
      (Node.consFolder "G" (Node.consFile "A" "P" .nil) .nil) []
      (by decide) (by simp)⟩

/-- Claim C5, counterexample: when both `os.startfile` and the fallback
`Popen` raise, the handler announces nothing, the exception propagates,
and the screen does not close — against the claim's announced generic
failure, no-raise guarantee, and unconditional close; moreover the
fallback process is `cmd /c start`, not the file-explorer process. -/
theorem claim5_counterexample :
    appsMenuOnOK ⟨true, true⟩ "X:\\a.lnk" true
      = ⟨⟨false, none, true⟩, [], none, none⟩ ∧
    (launchViaStart ⟨true, false⟩ "X:\\a.lnk").spawned
      = some ["cmd", "/c", "start", "", "X:\\a.lnk"] :=
  ⟨rfl, rfl⟩

/-- Claim C5, amended: the dispatcher tries `os.startfile` first and only
on `OSError` spawns `cmd /c start "" <path>`; no failure message is ever
announced; when either strategy goes through, the screen and its parent
close; when the fallback also raises, the exception propagates to the
caller and nothing closes.  `_on_launch_app` runs the same launch block
with no dialog to close. -/
theorem claim5_amended_launch (env : LaunchEnv) (path : String) :
    (appsMenuOnOK env path true).announced = [] ∧
    (env.startfileRaises = false →
      appsMenuOnOK env path true
        = ⟨⟨true, none, false⟩, [], some .ok, some .ok⟩) ∧
    (env.startfileRaises = true → env.popenRaises = false →
      appsMenuOnOK env path true
        = ⟨⟨false, some ["cmd", "/c", "start", "", path], false⟩, [],
            some .ok, some .ok⟩) ∧
    (env.startfileRaises = true → env.popenRaises = true →
      appsMenuOnOK env path true = ⟨⟨false, none, true⟩, [], none, none⟩) ∧
    onLaunchApp env path = launchViaStart env path := by
  obtain ⟨sf, po⟩ := env
  refine ⟨?_, ?_, ?_, ?_, rfl⟩ <;>
    cases sf <;> cases po <;>
      simp [appsMenuOnOK, launchViaStart, onLaunchApp]

/-- Claim C5, witness for the amended theorem. -/
theorem claim5_amended_witness :
    appsMenuOnOK ⟨false, false⟩ "X:\\b.lnk" true
      = ⟨⟨true, none, false⟩, [], some .ok, some .ok⟩ :=
  (claim5_amended_launch ⟨false, false⟩ "X:\\b.lnk").2.1 rfl

/-- Claim C6: on the Power screen, every valid selection first shows the
confirmation prompt; answering No spawns nothing and closes nothing (the
screen stays open), answering Yes spawns the matching `shutdown` command
and closes both the Power screen and its parent. -/
theorem claim6_power_confirmation (i : Nat) (hi : i < 3) :
    powerOnOK (some i) true false = .ok ⟨true, none, none, none⟩ ∧
    ∃ cmd, powerOnOK (some i) true true
        = .ok ⟨true, some cmd, some .ok, some .ok⟩ ∧
      cmd.head? = some "shutdown" := by
  interval_cases i
  · exact ⟨rfl, ["shutdown", "/l"], rfl, rfl⟩
  · exact ⟨rfl, ["shutdown", "/s", "/t", "0"], rfl, rfl⟩
  · exact ⟨rfl, ["shutdown", "/r", "/t", "0"], rfl, rfl⟩

/-- Claim C6, witness at the sign-out entry. -/
theorem claim6_witness :
    powerOnOK (some 0) true false = .ok ⟨true, none, none, none⟩ :=
  (claim6_power_confirmation 0 (by decide)).1

/-- Claim C7: after `_build_tree` succeeds, every interior node binds each
name to exactly one child; `_unique_name` never returns a taken key (so an
insertion never overwrites or aliases an existing child, as the
lookup-preservation conjunct states), and on a collision it returns the
first free `"name (i)"` with `i ≥ 2`. -/
theorem claim7_unique_names :
    (∀ (roots : List (String × List (List String × List String))) (T : Node),
      buildTree roots = .ok T → NodupN T) ∧
    (∀ (base : String) (t : Node),
      uniqueName base (keysOf t) ∉ keysOf t) ∧
    (∀ (base : String) (keys : List String), base ∈ keys →
      ∃ i0, uniqueName base keys = suffixed base i0 ∧ 2 ≤ i0 ∧
        suffixed base i0 ∉ keys ∧
        ∀ j, 2 ≤ j → j < i0 → suffixed base j ∈ keys) ∧
    (∀ (t : Node) (b p k : String) (e : EntryV),
      lookupA t k = some e → lookupA (insertLeaf t b p) k = some e) :=
  ⟨fun roots T h => nodupN_buildTreeFrom roots Node.nil T trivial h,
    fun base t => uniqueName_not_mem base (keysOf t),
    fun base keys h => uniqueName_spec_taken base keys h,
    fun t b p k e h => lookupA_insertLeaf_of_some t b p k e h⟩

/-- Claim C7, witness: a root with two same-named shortcuts builds a tree
whose node satisfies the uniqueness invariant. -/
theorem claim7_witness :
    NodupN (Node.consFile "A" "R\\A.lnk"
      (Node.consFile "A (2)" "R\\A.lnk" .nil)) :=
  claim7_unique_names.1 [("R", [([], ["A.lnk", "A.lnk"])])] _ rfl

/-- Claim C8, counterexample: `_build_tree` is not total — a root whose
directory `Games` collides with the leaf created for `Games.lnk` makes the
`setdefault` descent land on a string and the build raises. -/
theorem claim8_counterexample :
    buildTree [("R", [([], ["Games.lnk"]), (["Games"], ["App1.lnk"])])]
      = .error "descended into a leaf binding" := rfl

/-- Claim C8, amended: `_build_tree` returns a tree whenever no
relative-path component of any walked directory collides with a possible
leaf name, i.e. with a recognized base name or one of its `"base (i)"`
variants; at such a collision the error branch is reachable (see the
counterexample). -/
theorem claim8_amended_totality
    (roots : List (String × List (List String × List String)))
    (H : ∀ n ∈ rootsParts roots, ¬ leafShape (rootsBases roots) n) :
    ∃ T, buildTree roots = .ok T := by
  show ∃ T, buildTreeFrom Node.nil roots = .ok T
  refine @buildTreeFrom_ok_of_shaped (rootsBases roots) roots Node.nil
    trivial ?_
  intro r hr pr hpr
  refine ⟨?_, ?_⟩
  · intro p hp
    refine H p ?_
    exact List.mem_flatMap.mpr ⟨r, hr, List.mem_flatMap.mpr ⟨pr, hpr, hp⟩⟩
  · intro b hb
    exact List.mem_flatMap.mpr ⟨r, hr, List.mem_flatMap.mpr ⟨pr, hpr, hb⟩⟩

/-- Claim C8, witness: a collision-free root builds successfully. -/
theorem claim8_amended_witness :
    ∃ T, buildTree [("R", [([], ["App1.lnk"]), (["Games"], ["Chess.lnk"])])]
      = .ok T := by
  refine claim8_amended_totality
    [("R", [([], ["App1.lnk"]), (["Games"], ["Chess.lnk"])])] ?_
  intro n hn
  have hn2 : n = "Games" := by
    rw [show rootsParts
        [("R", [([], ["App1.lnk"]), (["Games"], ["Chess.lnk"])])]
      = ["Games"] from rfl] at hn
    simpa using hn
  subst hn2
  rintro ⟨b, hb, hc⟩
  have hb2 : b = "App1" ∨ b = "Chess" := by
    rw [show rootsBases
        [("R", [([], ["App1.lnk"]), (["Games"], ["Chess.lnk"])])]
      = ["App1", "Chess"] from rfl] at hb
    simpa using hb
  rcases hc with hc | ⟨i, hc⟩
  · rcases hb2 with rfl | rfl <;> exact absurd hc (by decide)
  · have hcl := suffixed_getLast b i
    rw [← hc] at hcl
    exact absurd hcl (by decide)

/-- Claim C9, counterexample: the filter strips the query first, so with
query `"x "` the entry `"x"` is kept although it does not contain `"x "`
case-insensitively — the result is not "exactly the subsequence whose
displayName contains the query". -/
theorem claim9_counterexample :
    refreshFilter [("x", "t")] "x " = [("x", "t")] ∧
    claimMatchCI "x" "x " = false :=
  ⟨rfl, rfl⟩

/-- Claim C9, amended: with the query first stripped of surrounding
whitespace, the filter returns the input unchanged when the stripped query
is empty, and otherwise exactly the order-preserving subsequence of entries
whose case-folded displayName contains the stripped case-folded query; it
is idempotent. -/
theorem claim9_amended_filter (apps : List (String × String))
    (query : String) :
    (pyStrip query = "" → refreshFilter apps query = apps) ∧
    (casefold (pyStrip query) ≠ "" →
      refreshFilter apps query
        = apps.filter (fun it =>
            containsSub (casefold it.1) (casefold (pyStrip query)))) ∧
    List.Sublist (refreshFilter apps query) apps ∧
    refreshFilter (refreshFilter apps query) query
      = refreshFilter apps query := by
  refine ⟨?_, ?_, ?_, ?_⟩
  · intro h
    simp [refreshFilter, h, casefold]
  · intro h
    simp [refreshFilter, h]
  · by_cases hq : casefold (pyStrip query) = ""
    · simp only [refreshFilter, hq, if_pos rfl]
      exact List.Sublist.refl apps
    · simp only [refreshFilter, if_neg hq]
      exact List.filter_sublist apps
  · by_cases hq : casefold (pyStrip query) = ""
    · simp [refreshFilter, hq]
    · simp [refreshFilter, hq, List.filter_filter]

/-- Claim C9, witness for the amended theorem. -/
theorem claim9_amended_witness :
    refreshFilter [("Alpha", "p"), ("Beta", "q")] "AL"
      = List.filter (fun it =>
          containsSub (casefold it.1) (casefold (pyStrip "AL")))
        [("Alpha", "p"), ("Beta", "q")] ∧
    refreshFilter [("Alpha", "p"), ("Beta", "q")] "" =
      [("Alpha", "p"), ("Beta", "q")] :=
  ⟨(claim9_amended_filter [("Alpha", "p"), ("Beta", "q")] "AL").2.1
      (by decide),
    (claim9_amended_filter [("Alpha", "p"), ("Beta", "q")] "").1 rfl⟩

/-- Claim C10 (spec-modelled, no favorites code exists in the source):
`FavoritesStore.load` returns exactly the persisted list pruned by the
load-time existence check — every returned path passes the check — the new
persisted state is that pruned list, and a re-persist happens exactly when
pruning changed the list. -/
theorem claim10_favorites_load (existsOnDisk : String → Bool)
    (st : FavoritesState) :
    (favoritesLoad existsOnDisk st).1 = st.persisted.filter existsOnDisk ∧
    (∀ p ∈ (favoritesLoad existsOnDisk st).1, existsOnDisk p = true) ∧
    ((favoritesLoad existsOnDisk st).2.1).persisted
      = (favoritesLoad existsOnDisk st).1 ∧
    ((favoritesLoad existsOnDisk st).2.2 = true ↔
      (favoritesLoad existsOnDisk st).1 ≠ st.persisted) := by
  refine ⟨rfl, ?_, rfl, by simp [favoritesLoad]⟩
  intro p hp
  exact (List.mem_filter.mp hp).2

/-- Claim C10, witness: a stale path is pruned and only existing paths are
returned. -/
theorem claim10_witness :
    ∀ p ∈ (favoritesLoad (fun q => !(q == "gone"))
        ⟨["a", "gone", "b"]⟩).1,
      (fun q => !(q == "gone")) p = true :=
  (claim10_favorites_load (fun q => !(q == "gone"))
    ⟨["a", "gone", "b"]⟩).2.1

end AccessMenu
